import Mathlib

/-
  Verification of the IranDoc Search UI query/result pipeline
  (src/UI/app.js and src/unnamed/part_000, two variants of the same
  client-side script).

  The JavaScript functions are shallowly embedded as executable Lean
  definitions.  Strings are Lean `String`s (lists of Unicode scalar
  values); JS `length` counts UTF-16 code units, which coincides with
  the code-point count for all characters appearing in the claims, so
  `String.length` is used.  JS `\s` matches Unicode whitespace; the
  model uses the common whitespace characters, which is what the
  claims exercise.
-/

/-- Whitespace test backing the JS regular expression class for spaces
(`\s`) and `String.trim`. -/
def isWs (c : Char) : Bool :=
  c == ' ' || c == '\t' || c == '\n' || c == '\r' || c == '\x0b' || c == '\x0c'

/-- Scanner for the JS split on runs of whitespace.  The second
argument is `some cur` while a field is being accumulated (in reverse)
and `none` while a whitespace run is being skipped.  A leading or
trailing run contributes one empty field, interior runs none, exactly
as `"x".split` with a one-or-more whitespace pattern behaves. -/
def splitWsGo : List Char → Option (List Char) → List (List Char)
  | [], none => [[]]
  | [], some cur => [cur.reverse]
  | c :: rest, none =>
      if isWs c then splitWsGo rest none else splitWsGo rest (some [c])
  | c :: rest, some cur =>
      if isWs c then cur.reverse :: splitWsGo rest none
      else splitWsGo rest (some (c :: cur))

/-- JS `query.split` on a run-of-whitespace pattern, as a list of
fields. -/
def splitWs (s : String) : List String :=
  (splitWsGo s.data (some [])).map (fun cs => String.mk cs)

/-- JS `Set` insertion-order deduplication, used to model
`[...new Set(tokens)]`: `seen` is the set of elements already kept. -/
def dedupAux : List String → List String → List String
  | [], _ => []
  | x :: xs, seen =>
      if x ∈ seen then dedupAux xs seen else x :: dedupAux xs (x :: seen)

/-- A JS array entry passed to `tokenise`: either a string or some
non-string value. -/
inductive JsElem where
  | str (s : String)
  | nonStr
deriving DecidableEq

/-- A JS value passed to `tokenise`: `null`/`undefined`, a string, an
array, or any other value (number, boolean, object); the falsy
non-string non-array values behave like `other` because every branch
returns the empty list for them. -/
inductive JsInput where
  | null
  | str (s : String)
  | arr (es : List JsElem)
  | other
deriving DecidableEq

/-- `tokenise` of src/unnamed/part_000 (lines 113-126):
falsy input yields `[]`; an array is filtered to its string entries of
length at least 2, without re-splitting; a string is split on
whitespace runs, filtered to terms of length at least 2, and
deduplicated via `new Set` (first occurrence wins); anything else
yields `[]`. -/
def tokenise : JsInput → List String
  | .null => []
  | .str s =>
      if s = "" then []
      else dedupAux ((splitWs s).filter (fun t => decide (2 ≤ t.length))) []
  | .arr es =>
      es.filterMap (fun e =>
        match e with
        | .str s => if 2 ≤ s.length then some s else none
        | .nonStr => none)
  | .other => []

namespace UI

/-- `tokenise` of src/UI/app.js (lines 91-93): a bare
`query.split(...).filter(t.length >= 2)` with no deduplication and no
handling of non-string input. -/
def tokenise (query : String) : List String :=
  (splitWs query).filter (fun t => decide (2 ≤ t.length))

/-- The src/UI/app.js `tokenise` applied to an arbitrary JS value.
`null`, arrays and other non-strings have no `split` method, so the
call throws a `TypeError`; the thrown exception is modelled by
`none`. -/
def tokenise? : JsInput → Option (List String)
  | .str s => some (tokenise s)
  | _ => none

end UI

/-! ## escHtml and the Highlighter (identical in both source variants) -/

/-- One pass of the JS global character replacement
`str.replace(<one character>, rep)`. -/
def replaceChar (c : Char) (rep : List Char) : List Char → List Char
  | [] => []
  | d :: rest => (if d = c then rep else [d]) ++ replaceChar c rep rest

/-- `escHtml` (src/UI/app.js lines 16-22, src/unnamed/part_000 lines
22-28): the four chained global replacements, ampersand first. -/
def escHtml (s : String) : String :=
  String.mk
    (replaceChar '"' "&quot;".data
      (replaceChar '>' "&gt;".data
        (replaceChar '<' "&lt;".data
          (replaceChar '&' "&amp;".data s.data))))

/-- The character class of the token-escaping replacement in
`highlight`: the fourteen JS regular-expression metacharacters. -/
def isRegexMeta (c : Char) : Bool :=
  c == '.' || c == '*' || c == '+' || c == '?' || c == '^' || c == '$' ||
  c == '{' || c == '}' || c == '(' || c == ')' || c == '|' || c == '[' ||
  c == ']' || c == '\\'

/-- `t.replace(<metacharacter class>, <backslash-dollar-ampersand>)`:
every metacharacter is preceded by a backslash. -/
def escapeTokChars : List Char → List Char
  | [] => []
  | c :: rest =>
      if isRegexMeta c then '\\' :: c :: escapeTokChars rest
      else c :: escapeTokChars rest

/-- JS `Array.join` with a separator, on character lists. -/
def joinSep (sep : List Char) : List (List Char) → List Char
  | [] => []
  | [x] => x
  | x :: xs => x ++ sep ++ joinSep sep xs

/-- The pattern string handed to `new RegExp` by `highlight`:
an opening parenthesis, the escaped tokens joined with a bar, and a
closing parenthesis. -/
def buildPattern (tokens : List String) : List Char :=
  '(' :: (joinSep ['|'] (tokens.map (fun t => escapeTokChars t.data)) ++ [')'])

/-- Reader for the group body of such a pattern, one character per
step.  The Bool flag records that the previous character was a
backslash, in which case the next character must be an escaped
metacharacter standing for itself.  `cur` accumulates the current
literal alternative in reverse, `acc` the finished alternatives.  An
unescaped metacharacter means the pattern is not a plain alternation
of literals (special matching semantics, or a compile error such as an
unbalanced parenthesis) and yields `none`. -/
def parseBody : List Char → Bool → List Char → List (List Char) → Option (List (List Char))
  | [], _, _, _ => none
  | c :: rest, true, cur, acc =>
      if isRegexMeta c then parseBody rest false (c :: cur) acc else none
  | c :: rest, false, cur, acc =>
      if c = ')' then
        if rest = [] then some (acc ++ [cur.reverse]) else none
      else if c = '|' then parseBody rest false [] (acc ++ [cur.reverse])
      else if c = '\\' then parseBody rest true cur acc
      else if isRegexMeta c then none
      else parseBody rest false (c :: cur) acc

/-- Compiling the whole pattern: it denotes an ordered alternation of
literal character sequences, or `none` when it is not such an
alternation. -/
def parseAltPattern : List Char → Option (List (List Char))
  | '(' :: rest => parseBody rest false [] []
  | _ => none

/-- The replacement text `$1` wrapped in the highlight marker. -/
def hlMark (t : List Char) : List Char :=
  "<mark class=\"hl\">".data ++ t ++ "</mark>".data

/-- Global replacement of an ordered alternation of literals, JS
semantics: scan left to right; at each position the first alternative
that matches wins; after a non-empty match the scan resumes after the
matched text; an empty match emits the marker and advances one
character; an empty alternative also matches once at the end of the
input.  `fuel` only bounds the recursion; `length + 1` steps always
suffice. -/
def jsReplaceGo (alts : List (List Char)) : Nat → List Char → List Char
  | _, [] =>
      match alts.find? (fun t => t.isEmpty) with
      | some t => hlMark t
      | none => []
  | 0, s => s
  | fuel + 1, c :: rest =>
      match alts.find? (fun t => t.isPrefixOf (c :: rest)) with
      | some [] => hlMark [] ++ c :: jsReplaceGo alts fuel rest
      | some (d :: t) => hlMark (d :: t) ++ jsReplaceGo alts fuel (List.drop t.length rest)
      | none => c :: jsReplaceGo alts fuel rest

/-- `escHtml(text).replace(re, <marker>)` for a compiled alternation
of literals. -/
def jsReplaceAll (alts : List (List Char)) (s : List Char) : List Char :=
  jsReplaceGo alts (s.length + 1) s

/-- `highlight` (src/UI/app.js lines 96-101, src/unnamed/part_000
lines 129-134).  Falsy text or an empty token list short-circuits to
the escaped text.  Otherwise the escaped tokens are compiled into one
alternation pattern and globally replaced inside the HTML-escaped
text; `none` models a pattern that fails to compile (or does not
denote a literal alternation), which would surface as a thrown
exception in JS. -/
def highlight? (text : String) (tokens : List String) : Option String :=
  if text = "" ∨ tokens = [] then some (escHtml text)
  else
    match parseAltPattern (buildPattern tokens) with
    | none => none
    | some alts => some (String.mk (jsReplaceAll alts (escHtml text).data))

/-! ## Lemmas: the escaped pattern denotes the literal tokens -/

/-- Reading an escaped token inside the group body consumes it as a
literal and moves it (reversed) onto the accumulator. -/
theorem parseBody_escTok (t : List Char) (rest cur : List Char)
    (acc : List (List Char)) :
    parseBody (escapeTokChars t ++ rest) false cur acc
      = parseBody rest false (t.reverse ++ cur) acc := by
  induction t generalizing cur with
  | nil => simp [escapeTokChars]
  | cons c t ih =>
    by_cases hc : isRegexMeta c = true
    · have h1 : ('\\' : Char) ≠ ')' := by decide
      have h2 : ('\\' : Char) ≠ '|' := by decide
      simp only [escapeTokChars, hc, if_true, List.cons_append, parseBody,
        if_neg h1, if_neg h2, if_pos rfl, if_pos hc]
      rw [ih]
      simp
    · have h1 : c ≠ ')' := by
        rintro rfl; simp [isRegexMeta] at hc
      have h2 : c ≠ '|' := by
        rintro rfl; simp [isRegexMeta] at hc
      have h3 : c ≠ '\\' := by
        rintro rfl; simp [isRegexMeta] at hc
      simp only [escapeTokChars, hc, if_false, List.cons_append, parseBody,
        if_neg h1, if_neg h2, if_neg h3]
      simp only [Bool.false_eq_true, if_false, List.append_eq]
      rw [ih]
      simp

/-- Reading the whole joined body of a non-empty token list yields all
the tokens as literal alternatives, appended to the accumulator. -/
theorem parseBody_join (toks : List (List Char)) (t : List Char)
    (acc : List (List Char)) :
    parseBody (joinSep ['|'] ((t :: toks).map escapeTokChars) ++ [')'])
        false [] acc
      = some (acc ++ t :: toks) := by
  induction toks generalizing t acc with
  | nil =>
    simp only [List.map, joinSep]
    rw [parseBody_escTok]
    simp [parseBody]
  | cons t2 toks ih =>
    simp only [List.map, joinSep]
    rw [List.append_assoc, List.append_assoc, parseBody_escTok,
      List.singleton_append]
    have h1 : ('|' : Char) ≠ ')' := by decide
    simp only [parseBody, if_neg h1, if_pos rfl]
    rw [List.append_nil, List.reverse_reverse]
    simp only [List.map_cons] at ih
    simp only [if_true]
    rw [ih]
    simp

/-- For any non-empty token list, the pattern `highlight` builds from
the escaped tokens compiles to exactly the ordered alternation of the
literal token texts. -/
theorem parseAltPattern_buildPattern (tokens : List String)
    (h : tokens ≠ []) :
    parseAltPattern (buildPattern tokens) = some (tokens.map String.data) := by
  obtain ⟨t, ts, rfl⟩ := List.exists_cons_of_ne_nil h
  show parseBody _ false [] [] = _
  rw [show ((t :: ts).map String.data) = t.data :: ts.map String.data from rfl]
  rw [show ((t :: ts).map (fun t => escapeTokChars t.data))
        = (t.data :: ts.map String.data).map escapeTokChars by simp]
  exact parseBody_join (ts.map String.data) t.data []

/-- `highlight` never fails: for an empty text or token list it
returns the escaped text, and otherwise the built pattern always
compiles. -/
theorem highlight?_isSome (text : String) (tokens : List String) :
    (highlight? text tokens).isSome = true := by
  unfold highlight?
  by_cases h : text = "" ∨ tokens = []
  · simp [h]
  · push_neg at h
    simp only [if_neg (by tauto : ¬(text = "" ∨ tokens = []))]
    rw [parseAltPattern_buildPattern tokens h.2]
    rfl

/-! ## Lemmas about the part_000 tokenizer -/

/-- Membership in the `Set`-deduplicated list: the element occurs in
the input and was not already kept. -/
theorem mem_dedupAux (l seen : List String) (t : String) :
    t ∈ dedupAux l seen ↔ t ∈ l ∧ t ∉ seen := by
  induction l generalizing seen with
  | nil => simp [dedupAux]
  | cons x xs ih =>
    by_cases hx : x ∈ seen
    · simp only [dedupAux, if_pos hx, ih]
      constructor
      · rintro ⟨h1, h2⟩; exact ⟨.tail _ h1, h2⟩
      · rintro ⟨h1, h2⟩
        rcases List.mem_cons.mp h1 with rfl | h1
        · exact absurd hx h2
        · exact ⟨h1, h2⟩
    · simp only [dedupAux, if_neg hx, List.mem_cons, ih, List.mem_cons,
        not_or]
      constructor
      · rintro (rfl | ⟨h1, h2, h3⟩)
        · exact ⟨Or.inl rfl, hx⟩
        · exact ⟨Or.inr h1, h3⟩
      · rintro ⟨rfl | h1, h2⟩
        · exact Or.inl rfl
        · by_cases ht : t = x
          · exact Or.inl ht
          · exact Or.inr ⟨h1, ht, h2⟩

/-- Deduplication yields a duplicate-free list. -/
theorem nodup_dedupAux (l seen : List String) :
    (dedupAux l seen).Nodup := by
  induction l generalizing seen with
  | nil => simp [dedupAux]
  | cons x xs ih =>
    by_cases hx : x ∈ seen
    · simpa [dedupAux, if_pos hx] using ih seen
    · simp only [dedupAux, if_neg hx]
      refine List.nodup_cons.mpr ⟨?_, ih (x :: seen)⟩
      intro hmem
      exact ((mem_dedupAux xs (x :: seen) x).mp hmem).2 (List.mem_cons_self x seen)

/-- Specification-level first-occurrence deduplication: keep the
head and erase every later occurrence of it.  This pins down
"duplicates removed keeping the first occurrence" independently of
the `Set`-based accumulator implementation: the first copy of each
element survives in place and all later copies are erased. -/
def keepFirstDedup : List String → List String
  | [] => []
  | x :: xs => x :: keepFirstDedup (xs.filter (fun y => decide (y ≠ x)))
termination_by l => l.length
decreasing_by
  simp only [List.length_cons]
  exact Nat.lt_succ_of_le (List.length_filter_le _ xs)

/-- The `Set`-based accumulator deduplication is exactly
first-occurrence deduplication of the input with the already-seen
elements removed. -/
theorem dedupAux_eq_keepFirstDedup (l seen : List String) :
    dedupAux l seen = keepFirstDedup (l.filter (fun x => decide (x ∉ seen))) := by
  induction l generalizing seen with
  | nil => simp [dedupAux, keepFirstDedup]
  | cons x xs ih =>
    by_cases hx : x ∈ seen
    · rw [show dedupAux (x :: xs) seen = dedupAux xs seen from by
        simp [dedupAux, if_pos hx]]
      rw [show (x :: xs).filter (fun x => decide (x ∉ seen))
            = xs.filter (fun x => decide (x ∉ seen)) from by
        simp [List.filter_cons, hx]]
      exact ih seen
    · rw [show dedupAux (x :: xs) seen = x :: dedupAux xs (x :: seen) from by
        simp [dedupAux, if_neg hx]]
      rw [show (x :: xs).filter (fun x => decide (x ∉ seen))
            = x :: xs.filter (fun x => decide (x ∉ seen)) from by
        simp [List.filter_cons, hx]]
      rw [keepFirstDedup, List.filter_filter]
      rw [show (fun a => decide (a ≠ x) && decide (a ∉ seen))
            = (fun a => decide (a ∉ x :: seen)) from by
        funext a
        simp [not_or]]
      rw [ih (x :: seen)]

/-- Deduplication keeps a subsequence of the input, so display order
is preserved. -/
theorem sublist_dedupAux (l seen : List String) :
    (dedupAux l seen).Sublist l := by
  induction l generalizing seen with
  | nil => simp [dedupAux]
  | cons x xs ih =>
    by_cases hx : x ∈ seen
    · simpa [dedupAux, if_pos hx] using (ih seen).trans (List.sublist_cons_self x xs)
    · simpa [dedupAux, if_neg hx] using (ih (x :: seen)).cons₂ x

/-- The tokens of a string input are exactly the whitespace-split
fields of length at least 2 (deduplication changes only
multiplicity). -/
theorem mem_tokenise_str (s : String) (t : String) :
    t ∈ tokenise (.str s)
      ↔ t ∈ (splitWs s).filter (fun t => decide (2 ≤ t.length)) := by
  by_cases hs : s = ""
  · subst hs
    have h1 : tokenise (.str "") = [] := rfl
    have h2 : (splitWs "").filter (fun t => decide (2 ≤ t.length)) = [] := by
      decide
    simp [h1, h2]
  · simp [tokenise, if_neg hs, mem_dedupAux]

/-- Every token produced from a string input has length at least 2. -/
theorem tokenise_str_length (s : String) (t : String)
    (h : t ∈ tokenise (.str s)) : 2 ≤ t.length := by
  have := (mem_tokenise_str s t).mp h
  have := List.of_mem_filter this
  simpa using this

/-! ## JS substring containment (`String.includes`) -/

/-- JS `s.includes(pat)`: `pat` occurs contiguously inside `s`. -/
def containsSeq (s pat : List Char) : Bool :=
  pat.isPrefixOf s ||
    match s with
    | [] => false
    | _ :: rest => containsSeq rest pat

/-- `containsSeq` decides the contiguous-substring relation. -/
theorem containsSeq_iff (s pat : List Char) :
    containsSeq s pat = true ↔ pat <:+: s := by
  induction s with
  | nil =>
    simp only [containsSeq, Bool.or_false]
    rw [List.isPrefixOf_iff_prefix]
    constructor
    · exact fun h => h.isInfix
    · intro h
      rw [List.infix_nil] at h
      subst h
      exact List.prefix_refl []
  | cons c rest ih =>
    simp only [containsSeq, Bool.or_eq_true, List.isPrefixOf_iff_prefix, ih]
    exact (List.infix_cons_iff).symm

/-- JS `a.includes(b)` on strings. -/
def jsIncludes (s sub : String) : Bool := containsSeq s.data sub.data

/-! ## ExpansionDiff (renderExpandedQuery), both variants -/

/-- CSS class a chip of the expanded-query box is given: `original`
when the token already occurs in the original query, `added`
otherwise. -/
inductive ChipOrigin where
  | original
  | added
deriving DecidableEq

/-- One chip of the expanded-query box. -/
structure ExpChip where
  tok : String
  origin : ChipOrigin
deriving DecidableEq

/-- What `renderExpandedQuery` leaves on screen: the chip list written
into the box and whether the box is given the `visible` class. -/
structure ExpansionResult where
  chips : List ExpChip
  visible : Bool
deriving DecidableEq

/-- `renderExpandedQuery` of src/unnamed/part_000 (lines 137-167).
The backend field `expanded_query` may be absent (`none`, falsy like
the empty string).  When no expanded token is new, the box is hidden
without writing chips. -/
def renderExpandedQuery (original : String) (expanded : Option String) :
    ExpansionResult :=
  match expanded with
  | none => ⟨[], false⟩
  | some e =>
      if e = "" then ⟨[], false⟩
      else
        let origTokens := tokenise (.str original)
        let expTokens := tokenise (.str e)
        let hasNewTerm := expTokens.any (fun t => !origTokens.contains t)
        if hasNewTerm then
          ⟨expTokens.map (fun tok =>
              ⟨tok, if origTokens.contains tok then .original else .added⟩),
            true⟩
        else ⟨[], false⟩

namespace UI

/-- `renderExpandedQuery` of src/UI/app.js (lines 104-117): the box is
hidden only when `expanded` is falsy or character-for-character equal
to `original`; otherwise the chips are shown even when every expanded
token already occurs in the original query. -/
def renderExpandedQuery (original : String) (expanded : Option String) :
    ExpansionResult :=
  match expanded with
  | none => ⟨[], false⟩
  | some e =>
      if e = "" ∨ e = original then ⟨[], false⟩
      else
        let originalTokens := tokenise original
        ⟨(tokenise e).map (fun tok =>
            ⟨tok, if originalTokens.contains tok then .original else .added⟩),
          true⟩

end UI

/-! ## KeywordMatcher (buildKeywords) and PersonListSplitter
(buildPersonRow), identical in both source variants -/

/-- Split on every occurrence of one of the given characters, the JS
single-character-class `split`. -/
def splitAnyGo (delims : List Char) : List Char → List Char → List (List Char)
  | [], cur => [cur.reverse]
  | c :: rest, cur =>
      if delims.contains c then cur.reverse :: splitAnyGo delims rest []
      else splitAnyGo delims rest (c :: cur)

/-- JS `String.trim`. -/
def trimChars (s : List Char) : List Char :=
  ((s.dropWhile isWs).reverse.dropWhile isWs).reverse

/-- JS `String.trim` on strings. -/
def trimS (s : String) : String := String.mk (trimChars s.data)

/-- The keyword list of `buildKeywords` (src/UI/app.js lines 274-286,
src/unnamed/part_000 lines 336-348): `keyword_text` split on newlines,
each part trimmed, empty parts dropped. -/
def keywordList (raw : String) : List String :=
  (((splitAnyGo ['\n'] raw.data []).map trimChars).filter
    (fun k => !k.isEmpty)).map (fun k => String.mk k)

/-- The chip data `buildKeywords` renders: each keyword together with
its `isMatch` flag, true when some query token contains the keyword or
the keyword contains the token. -/
def keywordChips (queryTokens : List String) (raw : String) :
    List (String × Bool) :=
  if raw = "" ∨ trimS raw = "" then []
  else
    (keywordList raw).map (fun k =>
      (k, queryTokens.any (fun t => jsIncludes k t || jsIncludes t k)))

/-- The name list of `buildPersonRow` (src/UI/app.js lines 259-271,
src/unnamed/part_000 lines 321-333): the field split on comma, Arabic
comma, semicolon and slash, each part trimmed, empty parts dropped. -/
def personNames (value : String) : List String :=
  (((splitAnyGo [',', '،', ';', '/'] value.data []).map trimChars).filter
    (fun n => !n.isEmpty)).map (fun n => String.mk n)

/-- `buildPersonRow`: an empty or whitespace-only field yields no row;
otherwise the names render as chips when there are at least two, and
as a single plain name otherwise.  When the split yields no name at
all, `names` is empty and the JS expression reads `names[0]`, which is
`undefined`; `escHtml` turns it into the empty string, modelled by
`headD` with default `""`. -/
def buildPersonRow (icon label value : String) : String :=
  if value = "" ∨ trimS value = "" then ""
  else
    let names := personNames value
    let nameHtml :=
      if 1 < names.length then
        "<div class=\"person-name-list\">" ++
          String.join (names.map (fun n =>
            "<span class=\"person-name-chip\">" ++ escHtml n ++ "</span>")) ++
          "</div>"
      else "<span class=\"person-name\">" ++ escHtml (names.headD "") ++ "</span>"
    "<div class=\"person-row\">" ++
      "<span class=\"person-icon\">" ++ icon ++ "</span>" ++
      "<span class=\"person-label\">" ++ label ++ ":</span>" ++
      nameHtml ++ "</div>"

/-! ## The runSearch state slice of src/unnamed/part_000 -/

/-- The two module-level token lists `runSearch` of
src/unnamed/part_000 writes for one search: `_queryTokens` is set from
the typed query before the request (line 177) and never reassigned;
`_expandedOnlyTokens` is reset and then set from `expanded_query` when
the response carries a truthy one (lines 235-240). -/
structure SearchHighlightState where
  queryTokens : List String
  expandedOnlyTokens : List String
deriving DecidableEq

/-- The state those assignments leave for the renderers, given the
typed query and the `expanded_query` field of the response. -/
def runSearchTokens (query : String) (expandedQuery : Option String) :
    SearchHighlightState :=
  { queryTokens := tokenise (.str query)
    expandedOnlyTokens :=
      match expandedQuery with
      | none => []
      | some e => if e = "" then [] else tokenise (.str e) }

/-- The keyword chips of one rendered card in src/unnamed/part_000:
`buildKeywords` (line 341) reads the module-level `_queryTokens`. -/
def renderDocKeywordChips (st : SearchHighlightState) (keywordText : String) :
    List (String × Bool) :=
  keywordChips st.queryTokens keywordText

/-- The highlighted title of one rendered card in src/unnamed/part_000
(line 290): `highlight` is called with `_expandedOnlyTokens`. -/
def renderDocTitle (st : SearchHighlightState) (title : String) :
    Option String :=
  highlight? (if title = "" then "—" else title) st.expandedOnlyTokens

/-! ## Claim theorems -/

/-- Claim C1: for every token list and text, `highlight` escapes every
regular-expression metacharacter in every token, so the alternation
pattern it builds always compiles, and it denotes exactly the ordered
alternation of the literal token texts (each token matches only its
own character sequence); consequently `highlight` never fails. -/
theorem highlight_escapes_all_metachars (text : String) (tokens : List String) :
    (tokens ≠ [] →
      parseAltPattern (buildPattern tokens) = some (tokens.map String.data)) ∧
    (highlight? text tokens).isSome = true :=
  ⟨parseAltPattern_buildPattern tokens, highlight?_isSome text tokens⟩

/-- Witness for C1 at tokens that contain metacharacters (a dot, a
parenthesis, a bracket). -/
theorem highlight_escapes_all_metachars_witness :
    parseAltPattern (buildPattern ["a.b", "(x["])
        = some (["a.b", "(x["].map String.data) ∧
    (highlight? "za.bq" ["a.b", "(x["]).isSome = true :=
  ⟨(highlight_escapes_all_metachars "za.bq" ["a.b", "(x["]).1 (by decide),
   (highlight_escapes_all_metachars "za.bq" ["a.b", "(x["]).2⟩

/-- Claim C2, counterexample: in the src/UI/app.js variant the claimed
equivalence fails — for original query `ab cd` and expanded query
`cd ab` the box is made visible although every expanded token already
occurs among the original tokens (no token is classified `added`). -/
theorem renderExpandedQueryUI_visible_without_added :
    (UI.renderExpandedQuery "ab cd" (some "cd ab")).visible = true ∧
    ((UI.tokenise "cd ab").all
        (fun t => (UI.tokenise "ab cd").contains t)) = true := by
  constructor <;> decide

/-- Claim C2, amended to the src/unnamed/part_000 variant: a falsy
expanded string yields no chips and no visibility, and the box is
visible exactly when some token of the expanded query is absent from
the original query's tokens. -/
theorem renderExpandedQuery_visible_iff_new_token (original : String)
    (expanded : Option String) :
    renderExpandedQuery original none = ⟨[], false⟩ ∧
    renderExpandedQuery original (some "") = ⟨[], false⟩ ∧
    ((renderExpandedQuery original expanded).visible = true ↔
      ∃ t ∈ tokenise (.str (expanded.getD "")), t ∉ tokenise (.str original)) := by
  refine ⟨rfl, rfl, ?_⟩
  match expanded with
  | none =>
    simp [renderExpandedQuery, show tokenise (.str "") = [] from rfl]
  | some e =>
    by_cases he : e = ""
    · subst he
      simp [renderExpandedQuery, show tokenise (.str "") = [] from rfl]
    · simp only [renderExpandedQuery, if_neg he, Option.getD_some]
      by_cases hnew : (tokenise (.str e)).any
          (fun t => !(tokenise (.str original)).contains t) = true
      · rw [if_pos hnew]
        simp only [true_iff]
        obtain ⟨t, ht, hc⟩ := List.any_eq_true.mp hnew
        refine ⟨t, ht, ?_⟩
        intro hmem
        simp [hmem] at hc
      · rw [if_neg hnew]
        simp only [Bool.false_eq_true, false_iff]
        rintro ⟨t, ht, hmem⟩
        apply hnew
        refine List.any_eq_true.mpr ⟨t, ht, ?_⟩
        simp [hmem]

/-- Claim C3, counterexample: the src/UI/app.js `tokenise` does not
deduplicate, so for the input `ab ab` a token occurs twice. -/
theorem tokeniseUI_keeps_duplicates :
    UI.tokenise "ab ab" = ["ab", "ab"] ∧ ¬ (UI.tokenise "ab ab").Nodup := by
  constructor <;> decide

/-- Claim C3, amended to the src/unnamed/part_000 variant: the token
list of a string equals the whitespace-split fields with every field
shorter than 2 discarded and duplicates removed keeping the first
occurrence (stated as an equality with the specification-level
first-occurrence deduplication, which keeps the first copy of each
element in place and erases all later copies); consequently every
token has length at least 2 and no token occurs twice. -/
theorem tokenise_str_spec (s : String) :
    tokenise (.str s)
      = keepFirstDedup ((splitWs s).filter (fun t => decide (2 ≤ t.length))) ∧
    (∀ t ∈ tokenise (.str s), 2 ≤ t.length) ∧
    (tokenise (.str s)).Nodup := by
  refine ⟨?_, tokenise_str_length s, ?_⟩
  · by_cases hs : s = ""
    · subst hs
      rw [show tokenise (.str "") = [] from rfl]
      rw [show (splitWs "").filter (fun t => decide (2 ≤ t.length)) = [] from by
        decide]
      rw [keepFirstDedup]
    · rw [show tokenise (.str s)
            = dedupAux ((splitWs s).filter (fun t => decide (2 ≤ t.length))) []
          from by simp [tokenise, if_neg hs]]
      rw [dedupAux_eq_keepFirstDedup]
      congr 1
      refine List.filter_eq_self.mpr ?_
      intro a _
      simp
  · by_cases hs : s = ""
    · subst hs; exact List.nodup_nil
    · simpa [tokenise, if_neg hs] using
        nodup_dedupAux ((splitWs s).filter (fun t => decide (2 ≤ t.length))) []

/-- Witness for C3 at the input `ab cd ab`, whose duplicate `ab` must
be dropped while its first occurrence keeps its position. -/
theorem tokenise_str_spec_witness :
    tokenise (.str "ab cd ab")
      = keepFirstDedup ((splitWs "ab cd ab").filter (fun t => decide (2 ≤ t.length))) ∧
    2 ≤ ("ab" : String).length :=
  ⟨(tokenise_str_spec "ab cd ab").1,
   (tokenise_str_spec "ab cd ab").2.1 "ab" (by decide)⟩

/-- An array of strings is filtered to its entries of length at least
2, each entry passed through verbatim. -/
theorem tokenise_arr_strings (xs : List String) :
    tokenise (.arr (xs.map JsElem.str))
      = xs.filter (fun t => decide (2 ≤ t.length)) := by
  induction xs with
  | nil => rfl
  | cons x xs ih =>
    simp only [tokenise, List.map_cons, List.filterMap_cons] at ih ⊢
    by_cases hx : 2 ≤ x.length
    · simp [hx, ih, List.filter_cons]
    · simp [hx, ih, List.filter_cons]

/-- Claim C4, counterexample: in the src/UI/app.js variant an
already-tokenized list is not filtered and passed through — the call
throws (arrays have no `split` method), modelled by `none`, so
`tokenize(tokenize(s))` is not even defined there. -/
theorem tokeniseUI_throws_on_array :
    UI.tokenise? (.arr [JsElem.str "ab"]) = none := rfl

/-- Claim C4, amended to the src/unnamed/part_000 variant:
re-tokenizing the token list of any string returns it unchanged
(idempotence), and a pre-tokenized list of strings is filtered to
entries of length at least 2 without re-splitting. -/
theorem tokenise_idempotent (s : String) (xs : List String) :
    tokenise (.arr ((tokenise (.str s)).map JsElem.str)) = tokenise (.str s) ∧
    tokenise (.arr (xs.map JsElem.str))
      = xs.filter (fun t => decide (2 ≤ t.length)) := by
  refine ⟨?_, tokenise_arr_strings xs⟩
  rw [tokenise_arr_strings]
  refine List.filter_eq_self.mpr ?_
  intro t ht
  simpa using tokenise_str_length s t ht

/-- Claim C5, counterexample: the src/UI/app.js `tokenise` raises a
`TypeError` on `null` (modelled by `none`) instead of returning an
empty token list. -/
theorem tokeniseUI_throws_on_null : UI.tokenise? .null = none := rfl

/-- Claim C5, amended to the src/unnamed/part_000 variant: `null`, the
empty string, an empty array and any non-string non-array value yield
the empty token list; the function is total, so it never raises. -/
theorem tokenise_empty_on_invalid :
    tokenise .null = [] ∧ tokenise (.str "") = [] ∧ tokenise .other = [] ∧
    tokenise (.arr []) = [] :=
  ⟨rfl, rfl, rfl, rfl⟩

/-- Claim C6, counterexample: a person field that trims to something
non-empty but splits to zero names (for example two bare commas) does
emit a person row — with an empty plain name — contradicting the
claim that no row is produced. -/
theorem buildPersonRow_zero_names_row :
    buildPersonRow "i" "A" ",," =
      "<div class=\"person-row\"><span class=\"person-icon\">i</span><span class=\"person-label\">A:</span><span class=\"person-name\"></span></div>" ∧
    buildPersonRow "i" "A" ",," ≠ "" := by
  constructor <;> decide

/-- Claim C6, amended: an empty or whitespace-only field yields no
row; otherwise the field is split on comma, Arabic comma, semicolon
and slash, each part trimmed and empty parts dropped; two or more
names render as a chip list, and at most one name renders as a single
plain name — the empty name when the split produced none. -/
theorem buildPersonRow_spec (icon label value : String) :
    (trimS value = "" → buildPersonRow icon label value = "") ∧
    (trimS value ≠ "" → 1 < (personNames value).length →
      buildPersonRow icon label value =
        "<div class=\"person-row\">" ++ "<span class=\"person-icon\">" ++ icon ++
        "</span>" ++ "<span class=\"person-label\">" ++ label ++ ":</span>" ++
        ("<div class=\"person-name-list\">" ++
          String.join ((personNames value).map (fun n =>
            "<span class=\"person-name-chip\">" ++ escHtml n ++ "</span>")) ++
          "</div>") ++ "</div>") ∧
    (trimS value ≠ "" → ¬ 1 < (personNames value).length →
      buildPersonRow icon label value =
        "<div class=\"person-row\">" ++ "<span class=\"person-icon\">" ++ icon ++
        "</span>" ++ "<span class=\"person-label\">" ++ label ++ ":</span>" ++
        ("<span class=\"person-name\">" ++
          escHtml ((personNames value).headD "") ++ "</span>") ++ "</div>") := by
  refine ⟨?_, ?_, ?_⟩
  · intro h
    simp [buildPersonRow, h]
  · intro h hlen
    have hv : ¬ (value = "" ∨ trimS value = "") := by
      rintro (rfl | h2)
      · exact h rfl
      · exact h h2
    simp only [buildPersonRow, if_neg hv, if_pos hlen]
  · intro h hlen
    have hv : ¬ (value = "" ∨ trimS value = "") := by
      rintro (rfl | h2)
      · exact h rfl
      · exact h h2
    simp only [buildPersonRow, if_neg hv, if_neg hlen]

/-- Witness for C6: a whitespace-only field yields no row, and the
two-name field of the specification example yields the chip list. -/
theorem buildPersonRow_spec_witness :
    buildPersonRow "i" "A" " " = "" ∧
    buildPersonRow "i" "A" "علی رضایی، حسن محمدی" =
      "<div class=\"person-row\">" ++ "<span class=\"person-icon\">" ++ "i" ++
      "</span>" ++ "<span class=\"person-label\">" ++ "A" ++ ":</span>" ++
      ("<div class=\"person-name-list\">" ++
        String.join ((personNames "علی رضایی، حسن محمدی").map (fun n =>
          "<span class=\"person-name-chip\">" ++ escHtml n ++ "</span>")) ++
        "</div>") ++ "</div>" :=
  ⟨(buildPersonRow_spec "i" "A" " ").1 (by decide),
   (buildPersonRow_spec "i" "A" "علی رضایی، حسن محمدی").2.1 (by decide) (by decide)⟩

/-- Claim C8: a keyword chip carries `isMatch = true` exactly when
some active query token is a contiguous substring of the keyword or
the keyword is a contiguous substring of that token. -/
theorem keywordChips_isMatch_iff (queryTokens : List String) (raw : String)
    (k : String) (b : Bool) (h : (k, b) ∈ keywordChips queryTokens raw) :
    b = true ↔ ∃ t ∈ queryTokens,
      t.data <:+: k.data ∨ k.data <:+: t.data := by
  unfold keywordChips at h
  by_cases hr : raw = "" ∨ trimS raw = ""
  · rw [if_pos hr] at h
    exact absurd h (List.not_mem_nil _)
  · rw [if_neg hr] at h
    obtain ⟨k0, _, heq⟩ := List.mem_map.mp h
    injection heq with h1 h2
    subst h1
    subst h2
    rw [List.any_eq_true]
    refine exists_congr fun t => and_congr_right fun _ => ?_
    rw [Bool.or_eq_true, jsIncludes, jsIncludes, containsSeq_iff, containsSeq_iff]

/-- Witness for C8 at the specification example: query token `شبکه`,
keyword `شبکه عصبی`. -/
theorem keywordChips_isMatch_iff_witness :
    (true = true ↔ ∃ t ∈ (["شبکه"] : List String),
      t.data <:+: ("شبکه عصبی" : String).data ∨
        ("شبکه عصبی" : String).data <:+: t.data) :=
  keywordChips_isMatch_iff ["شبکه"] "شبکه عصبی" "شبکه عصبی" true (by decide)

/-- Claim C9: because `highlight` HTML-escapes the text before
matching, the text `a<b` with token `lt` gets its marker inserted
inside the `&lt;` entity produced by the escaping, and the entity no
longer occurs intact in the output. -/
theorem highlight_marks_inside_entity :
    highlight? "a<b" ["lt"] = some "a&<mark class=\"hl\">lt</mark>;b" ∧
    containsSeq "a&<mark class=\"hl\">lt</mark>;b".data "&lt;".data = false := by
  constructor <;> decide

/-- Claim C10: in src/unnamed/part_000 the keyword chips of a card are
computed from `_queryTokens` (fixed from the typed query at search
start) and never from `_expandedOnlyTokens`, so two searches that
differ only in the backend's `expanded_query` produce identical
`isMatch` flags on every keyword chip. -/
theorem keyword_flags_ignore_expansion (query : String)
    (e1 e2 : Option String) (raw : String) :
    renderDocKeywordChips (runSearchTokens query e1) raw
      = renderDocKeywordChips (runSearchTokens query e2) raw := rfl
